import Mathlib

set_option linter.unusedVariables false

/-!
Verification of the histogram binner of `createOrUpdateReturnHistogram`
(src/frontend/js/charts.js, lines 132-177; the same function, with the same
binning code, appears in src/frontend/js/ui.js, lines 289-345).

Embedding conventions:
* JS IEEE-754 double arithmetic is modelled as exact rational arithmetic (ℚ);
  `Math.min(...xs)` / `Math.max(...xs)` over a non-empty spread become list
  folds of `min` / `max`; `Math.floor` becomes `Int.floor`.
* The `forEach` loop that mutates the `bins` array is modelled as a left fold
  (`assignStep`) over an explicit `List ℕ` state, exactly mirroring the loop
  body: the `binWidth === 0` guard, the floor-and-clamp index computation, the
  max-value correction, and the `bins[binIndex]++` update (`List.set`).
* The DOM/chart.js rendering around the binning arithmetic is abstracted into
  the `HistogramDisplay` outcome type; the early returns of the function
  (missing canvas, missing/empty data) become its non-`chart` constructors.
-/

namespace FinStock

/-- One record of the `binEdges` array: `{ start: binStart, end: binEnd }`.
The JS field `end` is a Lean keyword, so it is embedded as `stop`. -/
structure BinEdge where
  start : ℚ
  stop : ℚ
  deriving DecidableEq

instance : Inhabited BinEdge := ⟨⟨0, 0⟩⟩

/-- `Math.min(...dailyReturns)` for a non-empty argument list
(`[]` is unreachable behind the empty-input guard; 0 is a junk default). -/
def minReturn : List ℚ → ℚ
  | [] => 0
  | x :: xs => xs.foldl min x

/-- `Math.max(...dailyReturns)` for a non-empty argument list. -/
def maxReturn : List ℚ → ℚ
  | [] => 0
  | x :: xs => xs.foldl max x

/-- Fuel-driven search for the least `k` with `n ≤ 4*k*k`; this is
`Math.ceil(Math.sqrt(n) / 2)` on naturals (see `ceilHalfSqrt_eq_ceil_sqrt`),
written as structural recursion so that it evaluates in the kernel. -/
def ceilHalfSqrtAux (n : ℕ) : ℕ → ℕ → ℕ
  | 0, k => k
  | fuel + 1, k => if n ≤ 4 * k * k then k else ceilHalfSqrtAux n fuel (k + 1)

/-- `Math.ceil(Math.sqrt(n) / 2)` for a natural `n`. -/
def ceilHalfSqrt (n : ℕ) : ℕ := ceilHalfSqrtAux n (n + 1) 0

/-- `const numBins = Math.min(20, Math.max(10, Math.ceil(Math.sqrt(dailyReturns.length) / 2)));` -/
def numBins (n : ℕ) : ℕ := min 20 (max 10 (ceilHalfSqrt n))

/-- `const range = maxReturn - minReturn;`
`const binWidth = range > 0 ? range / numBins : 1;` -/
def binWidth (l : List ℚ) : ℚ :=
  if maxReturn l - minReturn l > 0 then
    (maxReturn l - minReturn l) / (numBins l.length : ℚ)
  else 1

/-- The first loop of the function: for `i = 0 .. numBins-1`,
`binStart = minReturn + i*binWidth`, and
`binEnd = (i === numBins - 1) ? maxReturn : binStart + binWidth`. -/
def binEdges (l : List ℚ) : List BinEdge :=
  (List.range (numBins l.length)).map fun i : ℕ =>
    { start := minReturn l + (i : ℚ) * binWidth l
      stop := if i = numBins l.length - 1 then maxReturn l
              else minReturn l + (i : ℚ) * binWidth l + binWidth l }

/-- `x.toFixed(2)` on an exact rational: round `x*100` to the nearest integer
(ties toward +∞, as ECMAScript `toFixed` picks the larger candidate) and print
sign, integer part and two decimal digits. -/
def toFixed2 (q : ℚ) : String :=
  let n : ℤ := round (q * 100)
  let sign := if n < 0 then "-" else ""
  let m := n.natAbs
  sign ++ toString (m / 100) ++ "." ++ toString (m / 10 % 10) ++ toString (m % 10)

/-- ``labels[i] = `${binStart.toFixed(2)}%`;`` -/
def labels (l : List ℚ) : List String :=
  (List.range (numBins l.length)).map fun i : ℕ =>
    toFixed2 (minReturn l + (i : ℚ) * binWidth l) ++ "%"

/-- The body of the `dailyReturns.forEach(ret => ...)` loop, as the bin index
it increments: `none` when the iteration counts nothing (the `binWidth === 0`
branch with `ret !== minReturn`), `some i` when it runs `bins[i]++`.
The clamp `Math.max(0, Math.min(numBins - 1, binIndex))` is the `ℤ`
clamp-then-`toNat`; the max-value correction follows it verbatim. -/
def binIndexOf (l : List ℚ) (ret : ℚ) : Option ℕ :=
  if binWidth l = 0 then
    if ret = minReturn l then some 0 else none
  else
    let n := numBins l.length
    let clamped : ℤ := max 0 (min ((n : ℤ) - 1) ⌊(ret - minReturn l) / binWidth l⌋)
    if ret = maxReturn l ∧ clamped.toNat < n - 1 then some (n - 1)
    else some clamped.toNat

/-- One `forEach` iteration acting on the mutable `bins` array. -/
def assignStep (l : List ℚ) (b : List ℕ) (ret : ℚ) : List ℕ :=
  match binIndexOf l ret with
  | none => b
  | some i => b.set i (b.getD i 0 + 1)

/-- `const bins = Array(numBins).fill(0);` followed by the `forEach` loop. -/
def bins (l : List ℚ) : List ℕ :=
  l.foldl (assignStep l) (List.replicate (numBins l.length) 0)

/-- Observable outcome of `createOrUpdateReturnHistogram`: the early return
when the canvas is missing, the "No return data available." placeholder, or a
rendered chart carrying the computed labels, counts and bin edges. -/
inductive HistogramDisplay where
  | noCanvas : HistogramDisplay
  | noData : HistogramDisplay
  | chart : List String → List ℕ → List BinEdge → HistogramDisplay
  deriving DecidableEq

/-- Control flow of `createOrUpdateReturnHistogram(dailyReturns)`:
`if (!canvas) return;` then
`if (!dailyReturns || dailyReturns.length === 0) { ...placeholder...; return; }`
(a missing array is `none`; a JS array is always truthy, so `!dailyReturns`
catches exactly `null`/`undefined`), else build the chart data. -/
def createOrUpdateReturnHistogram (canvasFound : Bool)
    (dailyReturns : Option (List ℚ)) : HistogramDisplay :=
  if canvasFound = false then .noCanvas
  else
    match dailyReturns with
    | none => .noData
    | some rs =>
        if rs.length = 0 then .noData
        else .chart (labels rs) (bins rs) (binEdges rs)

/-! ### Facts about `Math.min` / `Math.max` over the input list -/

theorem foldl_min_le_init (xs : List ℚ) (a : ℚ) : xs.foldl min a ≤ a := by
  induction xs generalizing a with
  | nil => exact le_refl a
  | cons x xs ih => exact le_trans (ih (min a x)) (min_le_left a x)

theorem foldl_min_le_mem (xs : List ℚ) (a x : ℚ) (hx : x ∈ xs) :
    xs.foldl min a ≤ x := by
  induction xs generalizing a with
  | nil => cases hx
  | cons y ys ih =>
    rcases List.mem_cons.mp hx with rfl | hmem
    · exact le_trans (foldl_min_le_init ys (min a x)) (min_le_right a x)
    · exact ih (min a y) hmem

theorem init_le_foldl_max (xs : List ℚ) (a : ℚ) : a ≤ xs.foldl max a := by
  induction xs generalizing a with
  | nil => exact le_refl a
  | cons x xs ih => exact le_trans (le_max_left a x) (ih (max a x))

theorem mem_le_foldl_max (xs : List ℚ) (a x : ℚ) (hx : x ∈ xs) :
    x ≤ xs.foldl max a := by
  induction xs generalizing a with
  | nil => cases hx
  | cons y ys ih =>
    rcases List.mem_cons.mp hx with rfl | hmem
    · exact le_trans (le_max_right a x) (init_le_foldl_max ys (max a x))
    · exact ih (max a y) hmem

theorem minReturn_le_of_mem {l : List ℚ} {r : ℚ} (hr : r ∈ l) :
    minReturn l ≤ r := by
  cases l with
  | nil => cases hr
  | cons x xs =>
    rcases List.mem_cons.mp hr with rfl | hmem
    · exact foldl_min_le_init xs r
    · exact foldl_min_le_mem xs x r hmem

theorem le_maxReturn_of_mem {l : List ℚ} {r : ℚ} (hr : r ∈ l) :
    r ≤ maxReturn l := by
  cases l with
  | nil => cases hr
  | cons x xs =>
    rcases List.mem_cons.mp hr with rfl | hmem
    · exact init_le_foldl_max xs r
    · exact mem_le_foldl_max xs x r hmem

theorem minReturn_le_maxReturn {l : List ℚ} (h : l ≠ []) :
    minReturn l ≤ maxReturn l := by
  cases l with
  | nil => exact absurd rfl h
  | cons x xs =>
    exact le_trans (minReturn_le_of_mem (List.mem_cons_self x xs))
      (le_maxReturn_of_mem (List.mem_cons_self x xs))

theorem eq_minReturn_of_degenerate {l : List ℚ} {r : ℚ}
    (hd : maxReturn l = minReturn l) (hr : r ∈ l) : r = minReturn l :=
  le_antisymm (hd ▸ le_maxReturn_of_mem hr) (minReturn_le_of_mem hr)

/-! ### Facts about `numBins` and `binWidth` -/

theorem ten_le_numBins (n : ℕ) : 10 ≤ numBins n := by
  unfold numBins; omega

theorem numBins_le_twenty (n : ℕ) : numBins n ≤ 20 := by
  unfold numBins; omega

theorem numBins_pos (n : ℕ) : 0 < numBins n :=
  lt_of_lt_of_le (by norm_num) (ten_le_numBins n)

theorem binWidth_pos (l : List ℚ) : 0 < binWidth l := by
  unfold binWidth
  split
  · apply div_pos ‹_›
    exact_mod_cast numBins_pos l.length
  · norm_num

theorem binWidth_ne_zero (l : List ℚ) : binWidth l ≠ 0 :=
  ne_of_gt (binWidth_pos l)

theorem binWidth_of_range_pos {l : List ℚ} (h : minReturn l < maxReturn l) :
    binWidth l = (maxReturn l - minReturn l) / (numBins l.length : ℚ) := by
  unfold binWidth
  rw [if_pos (by linarith)]

theorem binWidth_of_degenerate {l : List ℚ} (h : maxReturn l = minReturn l) :
    binWidth l = 1 := by
  unfold binWidth
  rw [if_neg (by rw [h]; simp)]

/-! ### Facts about the per-sample bin index -/

theorem binIndexOf_some (l : List ℚ) (r : ℚ) :
    ∃ j, binIndexOf l r = some j ∧ j < numBins l.length := by
  have hw := binWidth_ne_zero l
  have hn := ten_le_numBins l.length
  unfold binIndexOf
  rw [if_neg hw]
  dsimp only
  set n := numBins l.length with hdefn
  set c : ℤ := max 0 (min ((n : ℤ) - 1) ⌊(r - minReturn l) / binWidth l⌋) with hc
  have hcle : c ≤ (n : ℤ) - 1 := by
    apply max_le (by omega) (min_le_left _ _)
  have hidx : c.toNat ≤ n - 1 := by
    have := Int.toNat_le_toNat hcle
    omega
  split
  · exact ⟨n - 1, rfl, by omega⟩
  · exact ⟨c.toNat, rfl, by omega⟩

theorem binIndexOf_max (l : List ℚ) (r : ℚ) (hr : r = maxReturn l) :
    binIndexOf l r = some (numBins l.length - 1) := by
  have hw := binWidth_ne_zero l
  have hn := ten_le_numBins l.length
  unfold binIndexOf
  rw [if_neg hw]
  dsimp only
  set n := numBins l.length with hdefn
  set c : ℤ := max 0 (min ((n : ℤ) - 1) ⌊(r - minReturn l) / binWidth l⌋) with hc
  have hcle : c ≤ (n : ℤ) - 1 := by
    apply max_le (by omega) (min_le_left _ _)
  have hidx : c.toNat ≤ n - 1 := by
    have := Int.toNat_le_toNat hcle
    omega
  split
  · rfl
  · rename_i hcond
    rw [not_and] at hcond
    have : ¬ c.toNat < n - 1 := hcond hr
    congr 1
    omega

/-! ### The `forEach` loop as a fold: length, sum and per-bin counts -/

theorem length_assignStep (l : List ℚ) (b : List ℕ) (r : ℚ) :
    (assignStep l b r).length = b.length := by
  unfold assignStep
  cases binIndexOf l r <;> simp

theorem length_foldl_assignStep (l : List ℚ) (xs : List ℚ) (b : List ℕ) :
    (xs.foldl (assignStep l) b).length = b.length := by
  induction xs generalizing b with
  | nil => rfl
  | cons r xs ih => rw [List.foldl_cons, ih, length_assignStep]

theorem bins_length (l : List ℚ) : (bins l).length = numBins l.length := by
  unfold bins
  rw [length_foldl_assignStep, List.length_replicate]

theorem sum_set_getD_add_one (b : List ℕ) (j : ℕ) (h : j < b.length) :
    (b.set j (b.getD j 0 + 1)).sum = b.sum + 1 := by
  induction b generalizing j with
  | nil => simp at h
  | cons x t ih =>
    cases j with
    | zero =>
      simp only [List.getD_cons_zero, List.set_cons_zero, List.sum_cons]
      omega
    | succ j =>
      simp only [List.length_cons, Nat.add_lt_add_iff_right] at h
      simp only [List.getD_cons_succ, List.set_cons_succ, List.sum_cons, ih j h]
      omega

theorem sum_foldl_assignStep (l : List ℚ) (xs : List ℚ) (b : List ℕ)
    (hb : b.length = numBins l.length) :
    (xs.foldl (assignStep l) b).sum = b.sum + xs.length := by
  induction xs generalizing b with
  | nil => simp
  | cons r xs ih =>
    rw [List.foldl_cons, ih _ (by rw [length_assignStep]; exact hb)]
    obtain ⟨j, hj, hjlt⟩ := binIndexOf_some l r
    unfold assignStep
    rw [hj, sum_set_getD_add_one b j (by omega)]
    simp only [List.length_cons]
    omega

theorem bins_sum (l : List ℚ) : (bins l).sum = l.length := by
  unfold bins
  rw [sum_foldl_assignStep l l _ (List.length_replicate _ _)]
  simp

theorem getD_set_self (b : List ℕ) (j v : ℕ) (h : j < b.length) :
    (b.set j v).getD j 0 = v := by
  induction b generalizing j with
  | nil => simp at h
  | cons x t ih =>
    cases j with
    | zero => rfl
    | succ j =>
      simp only [List.set_cons_succ, List.getD_cons_succ]
      exact ih j (by simpa using h)

theorem getD_set_ne (b : List ℕ) (i j v : ℕ) (h : i ≠ j) :
    (b.set i v).getD j 0 = b.getD j 0 := by
  induction b generalizing i j with
  | nil => simp
  | cons x t ih =>
    cases i with
    | zero =>
      cases j with
      | zero => exact absurd rfl h
      | succ j => rfl
    | succ i =>
      cases j with
      | zero => rfl
      | succ j =>
        simp only [List.set_cons_succ, List.getD_cons_succ]
        exact ih i j (by omega)

theorem getD_replicate_zero (n j : ℕ) : (List.replicate n (0 : ℕ)).getD j 0 = 0 := by
  induction n generalizing j with
  | zero => rfl
  | succ n ih =>
    cases j with
    | zero => rfl
    | succ j => simp [List.replicate_succ]

theorem getD_foldl_assignStep (l : List ℚ) (xs : List ℚ) (b : List ℕ) (j : ℕ)
    (hb : b.length = numBins l.length) (hj : j < numBins l.length) :
    (xs.foldl (assignStep l) b).getD j 0 =
      b.getD j 0 + xs.countP (fun r => decide (binIndexOf l r = some j)) := by
  induction xs generalizing b with
  | nil => simp
  | cons r xs ih =>
    obtain ⟨i, hi, hilt⟩ := binIndexOf_some l r
    rw [List.foldl_cons, ih _ (by rw [length_assignStep]; exact hb),
      List.countP_cons]
    unfold assignStep
    rw [hi]
    simp only [Option.some.injEq, decide_eq_true_eq]
    by_cases hij : i = j
    · subst hij
      rw [getD_set_self b i _ (by omega), if_pos rfl]
      omega
    · rw [getD_set_ne b i j _ hij, if_neg hij]
      omega

theorem bins_getD (l : List ℚ) (j : ℕ) (hj : j < numBins l.length) :
    (bins l).getD j 0 =
      l.countP (fun r => decide (binIndexOf l r = some j)) := by
  unfold bins
  rw [getD_foldl_assignStep l l _ j (List.length_replicate _ _) hj,
    getD_replicate_zero, Nat.zero_add]

/-- Reading the `i`-th record produced by a `for (i = 0; i < n; i++)` loop. -/
theorem getD_range_map {α : Type} (f : ℕ → α) (n i : ℕ) (d : α) (h : i < n) :
    ((List.range n).map f).getD i d = f i := by
  rw [List.getD_eq_getElem _ _ (by simpa using h), List.getElem_map,
    List.getElem_range]

/-! ### `ceilHalfSqrt` computes `Math.ceil(Math.sqrt(n) / 2)` -/

theorem ceilHalfSqrtAux_le (n : ℕ) :
    ∀ fuel k m, k ≤ m → n ≤ 4 * m * m → ceilHalfSqrtAux n fuel k ≤ m := by
  intro fuel
  induction fuel with
  | zero => intro k m hkm _; exact hkm
  | succ fuel ih =>
    intro k m hkm hm
    unfold ceilHalfSqrtAux
    split
    · exact hkm
    · rename_i hk
      apply ih (k + 1) m _ hm
      rcases Nat.lt_or_ge k m with h | h
      · omega
      · exact absurd (le_antisymm hkm h ▸ hm) hk

theorem ceilHalfSqrtAux_spec (n : ℕ) :
    ∀ fuel k, n ≤ 4 * (k + fuel) * (k + fuel) →
      n ≤ 4 * ceilHalfSqrtAux n fuel k * ceilHalfSqrtAux n fuel k := by
  intro fuel
  induction fuel with
  | zero => intro k h; simpa using h
  | succ fuel ih =>
    intro k h
    unfold ceilHalfSqrtAux
    split
    · assumption
    · apply ih (k + 1)
      have heq : k + 1 + fuel = k + (fuel + 1) := by omega
      rw [heq]
      exact h

theorem le_four_mul_ceilHalfSqrt_sq (n : ℕ) :
    n ≤ 4 * ceilHalfSqrt n * ceilHalfSqrt n := by
  unfold ceilHalfSqrt
  apply ceilHalfSqrtAux_spec
  nlinarith [Nat.le_succ n]

theorem ceilHalfSqrt_le (n m : ℕ) (hm : n ≤ 4 * m * m) : ceilHalfSqrt n ≤ m :=
  ceilHalfSqrtAux_le n (n + 1) 0 m (Nat.zero_le m) hm

theorem ceilHalfSqrt_eq_ceil_sqrt (n : ℕ) :
    ceilHalfSqrt n = ⌈Real.sqrt n / 2⌉₊ := by
  apply le_antisymm
  · apply ceilHalfSqrt_le
    set m := ⌈Real.sqrt n / 2⌉₊ with hm
    have h1 : Real.sqrt n / 2 ≤ (m : ℝ) := Nat.le_ceil _
    have h0 : (0 : ℝ) ≤ Real.sqrt n := Real.sqrt_nonneg _
    have h3 : (n : ℝ) ≤ (2 * m) * (2 * m) := by
      calc (n : ℝ) = Real.sqrt n * Real.sqrt n :=
            (Real.mul_self_sqrt (by positivity)).symm
        _ ≤ (2 * m) * (2 * m) := by nlinarith
    have h4 : (n : ℝ) ≤ ((4 * m * m : ℕ) : ℝ) := by push_cast; nlinarith
    exact_mod_cast h4
  · rw [Nat.ceil_le]
    set c := ceilHalfSqrt n with hc
    have h1 : (n : ℝ) ≤ ((4 * c * c : ℕ) : ℝ) := by
      exact_mod_cast le_four_mul_ceilHalfSqrt_sq n
    have h2 : (n : ℝ) ≤ (2 * c) ^ 2 := by push_cast at h1 ⊢; nlinarith
    have h3 : Real.sqrt n ≤ 2 * c := by
      calc Real.sqrt n ≤ Real.sqrt ((2 * c) ^ 2) := Real.sqrt_le_sqrt h2
        _ = 2 * c := Real.sqrt_sq (by positivity)
    linarith

/-! ### Claims -/

/-- Claim C1: for every non-empty sequence of finite return values, the binner
assigns every sample to exactly one bin, so the bin counts sum to the length
of the input sequence. -/
theorem hist_counts_sum_eq_length (l : List ℚ) (h : l ≠ []) :
    (bins l).sum = l.length :=
  bins_sum l

theorem hist_counts_sum_eq_length_witness :
    (bins ((0 : ℚ) :: 1 :: [])).sum = 2 :=
  hist_counts_sum_eq_length ((0 : ℚ) :: 1 :: []) (List.cons_ne_nil 0 (1 :: []))

/-- Claim C2 counterexample: on the all-identical input `[2.0, 2.0, 2.0]` the
max-value correction of the assignment loop (every sample equals `maxReturn`)
moves every sample to the last bin, so bin 0 counts 0 samples, not 3 as the
claim states. -/
theorem hist_degenerate_bin_zero_cex :
    (bins ((2 : ℚ) :: 2 :: 2 :: [])).getD 0 0 = 0 ∧
    ¬ (bins ((2 : ℚ) :: 2 :: 2 :: [])).getD 0 0 = 3 := by
  have hb : bins ((2 : ℚ) :: 2 :: 2 :: []) = [0, 0, 0, 0, 0, 0, 0, 0, 0, 3] := by
    norm_num [bins, assignStep, binIndexOf, binWidth, maxReturn, minReturn,
      max_def, min_def, numBins, ceilHalfSqrt, ceilHalfSqrtAux, List.foldl]
    decide
  rw [hb]
  exact ⟨rfl, by decide⟩

/-- Claim C2 (amended): for every non-empty input whose values are all
identical (`max == min`) the binner uses bin width 1, but places all samples
in the LAST bin (index `numBins - 1`), not bin 0: the last bin's count equals
the input length and every other bin's count is 0 (e.g. `[2.0, 2.0, 2.0]`
yields count 3 in bin 9). -/
theorem hist_degenerate_all_in_last_bin (l : List ℚ) (h : l ≠ [])
    (hd : maxReturn l = minReturn l) :
    binWidth l = 1 ∧
    (bins l).getD (numBins l.length - 1) 0 = l.length ∧
    ∀ j, j < numBins l.length - 1 → (bins l).getD j 0 = 0 := by
  have hn := ten_le_numBins l.length
  refine ⟨binWidth_of_degenerate hd, ?_, ?_⟩
  · rw [bins_getD l _ (by omega)]
    apply List.countP_eq_length.mpr
    intro r hr
    simp only [decide_eq_true_eq]
    exact binIndexOf_max l r ((eq_minReturn_of_degenerate hd hr).trans hd.symm)
  · intro j hj
    rw [bins_getD l j (by omega)]
    apply List.countP_eq_zero.mpr
    intro r hr
    simp only [decide_eq_true_eq]
    rw [binIndexOf_max l r ((eq_minReturn_of_degenerate hd hr).trans hd.symm)]
    simp only [Option.some.injEq]
    omega

theorem hist_degenerate_all_in_last_bin_witness :
    (bins ((2 : ℚ) :: 2 :: 2 :: [])).getD (numBins 3 - 1) 0 = 3 :=
  (hist_degenerate_all_in_last_bin ((2 : ℚ) :: 2 :: 2 :: [])
    (List.cons_ne_nil 2 (2 :: 2 :: []))
    (by norm_num [maxReturn, minReturn, max_def, min_def])).2.1

/-- Claim C3: for every non-empty input of length `n` the binner computes
`numBins = clamp(ceil(sqrt(n) / 2), 10, 20)`; in particular `n = 4` gives 10,
`n = 400` gives 10, and `n = 10000` gives 20. -/
theorem hist_numBins_policy (l : List ℚ) (h : l ≠ []) :
    numBins l.length = min 20 (max 10 ⌈Real.sqrt (l.length : ℝ) / 2⌉₊) ∧
    numBins 4 = 10 ∧ numBins 400 = 10 ∧ numBins 10000 = 20 := by
  refine ⟨?_, by decide, by decide, by decide⟩
  unfold numBins
  rw [ceilHalfSqrt_eq_ceil_sqrt]

theorem hist_numBins_policy_witness :
    numBins 1 = min 20 (max 10 ⌈Real.sqrt ((1 : ℕ) : ℝ) / 2⌉₊) ∧
    numBins 4 = 10 ∧ numBins 400 = 10 ∧ numBins 10000 = 20 :=
  hist_numBins_policy ((1 : ℚ) :: []) (List.cons_ne_nil 1 [])

/-- Claim C4: for every non-empty input with `max > min`, every sample exactly
equal to the maximum is assigned to the last bin (index `numBins - 1`) — the
clamp plus the explicit max-value correction guarantee this regardless of what
the floor division yields — and no sample is dropped or assigned outside
`[0, numBins - 1]`; consequently the last bin's count is at least the number
of max-valued samples. -/
theorem hist_max_sample_in_last_bin (l : List ℚ) (h : l ≠ [])
    (hlt : minReturn l < maxReturn l) :
    (∀ r ∈ l, r = maxReturn l → binIndexOf l r = some (numBins l.length - 1)) ∧
    (∀ r ∈ l, ∃ j, binIndexOf l r = some j ∧ j < numBins l.length) ∧
    l.countP (fun r => decide (r = maxReturn l)) ≤
      (bins l).getD (numBins l.length - 1) 0 := by
  have hn := ten_le_numBins l.length
  refine ⟨fun r _ hr => binIndexOf_max l r hr,
    fun r _ => binIndexOf_some l r, ?_⟩
  rw [bins_getD l _ (by omega)]
  apply List.countP_mono_left
  intro r hr
  simp only [decide_eq_true_eq]
  exact binIndexOf_max l r

theorem hist_max_sample_in_last_bin_witness :
    List.countP (fun r => decide (r = maxReturn ((0 : ℚ) :: 1 :: [])))
        ((0 : ℚ) :: 1 :: []) ≤
      (bins ((0 : ℚ) :: 1 :: [])).getD (numBins 2 - 1) 0 :=
  (hist_max_sample_in_last_bin ((0 : ℚ) :: 1 :: [])
    (List.cons_ne_nil 0 (1 :: []))
    (by norm_num [minReturn, maxReturn, min_def, max_def])).2.2

/-- Claim C5: for every non-empty input, the first bin's start equals
`min(input)` exactly, and the last bin's end is forced to exactly
`max(input)`. -/
theorem hist_edges_cover_min_max (l : List ℚ) (h : l ≠ []) :
    ((binEdges l).getD 0 default).start = minReturn l ∧
    ((binEdges l).getD (numBins l.length - 1) default).stop = maxReturn l := by
  have hn := ten_le_numBins l.length
  unfold binEdges
  constructor
  · rw [getD_range_map _ _ 0 _ (by omega)]
    simp
  · rw [getD_range_map _ _ (numBins l.length - 1) _ (by omega)]
    simp

theorem hist_edges_cover_min_max_witness :
    ((binEdges ((0 : ℚ) :: 1 :: [])).getD 0 default).start =
      minReturn ((0 : ℚ) :: 1 :: []) :=
  (hist_edges_cover_min_max ((0 : ℚ) :: 1 :: [])
    (List.cons_ne_nil 0 (1 :: []))).1

/-- Claim C6: for every non-empty input, the binner produces exactly `numBins`
bin counts, exactly `numBins` labels and exactly `numBins` bin-edge records,
and every count is ≥ 0; no bin is silently dropped. -/
theorem hist_output_shape (l : List ℚ) (h : l ≠ []) :
    (bins l).length = numBins l.length ∧
    (labels l).length = numBins l.length ∧
    (binEdges l).length = numBins l.length ∧
    ∀ c ∈ bins l, 0 ≤ c := by
  refine ⟨bins_length l, ?_, ?_, fun c _ => Nat.zero_le c⟩
  · unfold labels
    rw [List.length_map, List.length_range]
  · unfold binEdges
    rw [List.length_map, List.length_range]

theorem hist_output_shape_witness :
    (bins ((5 : ℚ) :: [])).length = numBins 1 :=
  (hist_output_shape ((5 : ℚ) :: []) (List.cons_ne_nil 5 [])).1

/-- Claim C7 counterexample: on the all-identical input `[2.0, 2.0, 2.0]`
(where `binWidth = 1`) the last bin has `start = 2 + 9·1 = 11`, but its end is
overridden to `max = 2`, so `bins[9].start ≤ bins[9].end` fails: monotonicity
does not hold for every non-empty input. -/
theorem hist_monotone_cex :
    ¬ (((binEdges ((2 : ℚ) :: 2 :: 2 :: [])).getD 9 default).start ≤
       ((binEdges ((2 : ℚ) :: 2 :: 2 :: [])).getD 9 default).stop) := by
  have hmin : minReturn ((2 : ℚ) :: 2 :: 2 :: []) = 2 := by
    norm_num [minReturn, min_def]
  have hmax : maxReturn ((2 : ℚ) :: 2 :: 2 :: []) = 2 := by
    norm_num [maxReturn, max_def]
  have hnb : numBins (((2 : ℚ) :: 2 :: 2 :: []).length) = 10 := by decide
  have hw : binWidth ((2 : ℚ) :: 2 :: 2 :: []) = 1 :=
    binWidth_of_degenerate (hmax.trans hmin.symm)
  unfold binEdges
  rw [getD_range_map _ _ 9 _ (by rw [hnb]; norm_num)]
  dsimp only
  rw [hmin, hmax, hw, hnb]
  norm_num

/-- Claim C7 (amended): for every non-empty input with `max > min` the bin
edges are monotone: each bin's start is ≤ its end and each bin's end is ≤ the
next bin's start (non-final edges are exactly contiguous). The restriction to
`max > min` is forced: in the degenerate `max == min` case the documented
last-bin-end override leaves the final bin's end (= max) strictly below its
start. -/
theorem hist_monotone_of_range_pos (l : List ℚ) (h : l ≠ [])
    (hlt : minReturn l < maxReturn l) :
    ∀ i, i < numBins l.length →
      (((binEdges l).getD i default).start ≤
        ((binEdges l).getD i default).stop) ∧
      (i + 1 < numBins l.length →
        ((binEdges l).getD i default).stop ≤
          ((binEdges l).getD (i + 1) default).start) := by
  have hn := ten_le_numBins l.length
  have hw := binWidth_pos l
  have hnpos : (0 : ℚ) < (numBins l.length : ℚ) := by
    exact_mod_cast numBins_pos l.length
  have hnw : (numBins l.length : ℚ) * binWidth l = maxReturn l - minReturn l := by
    rw [binWidth_of_range_pos hlt]
    field_simp
  intro i hi
  unfold binEdges
  rw [getD_range_map _ _ i _ hi]
  dsimp only
  constructor
  · by_cases hlast : i = numBins l.length - 1
    · subst hlast
      rw [if_pos rfl]
      have hcast : ((numBins l.length - 1 : ℕ) : ℚ) =
          (numBins l.length : ℚ) - 1 := by
        have h1 : (1 : ℕ) ≤ numBins l.length := by omega
        push_cast [h1]
        ring
      rw [hcast]
      nlinarith [hnw, hw]
    · rw [if_neg hlast]
      linarith [hw]
  · intro hnext
    have hlast : i ≠ numBins l.length - 1 := by omega
    rw [if_neg hlast, getD_range_map _ _ (i + 1) _ hnext]
    dsimp only
    apply le_of_eq
    push_cast
    ring

theorem hist_monotone_of_range_pos_witness :
    ((binEdges ((0 : ℚ) :: 1 :: [])).getD 0 default).start ≤
      ((binEdges ((0 : ℚ) :: 1 :: [])).getD 0 default).stop :=
  (hist_monotone_of_range_pos ((0 : ℚ) :: 1 :: [])
    (List.cons_ne_nil 0 (1 :: []))
    (by norm_num [minReturn, maxReturn, min_def, max_def]) 0
    (numBins_pos 2)).1

/-- Claim C8: the histogram binning computation is a pure, deterministic
function of the input sequence alone: two runs on equal input sequences
produce identical `numBins`, bin width, bin edges, labels, counts, and chart
outcome — nothing depends on wall-clock time or external state. -/
theorem hist_deterministic (l1 l2 : List ℚ) (h : l1 = l2) :
    numBins l1.length = numBins l2.length ∧
    binWidth l1 = binWidth l2 ∧
    binEdges l1 = binEdges l2 ∧
    labels l1 = labels l2 ∧
    bins l1 = bins l2 ∧
    createOrUpdateReturnHistogram true (some l1) =
      createOrUpdateReturnHistogram true (some l2) := by
  subst h
  exact ⟨rfl, rfl, rfl, rfl, rfl, rfl⟩

theorem hist_deterministic_witness :
    bins ((1 : ℚ) :: []) = bins ((1 : ℚ) :: []) :=
  (hist_deterministic ((1 : ℚ) :: []) ((1 : ℚ) :: []) rfl).2.2.2.2.1

/-- Claim C9: for an empty or missing (`null`/`undefined`) returns series,
`createOrUpdateReturnHistogram` returns early with the "no data" placeholder:
the outcome is `noData`, never a `chart` (the only outcome built from the
binner's labels, counts and edges), so the binning algorithm is never reached;
empty input is a display condition, not an error. -/
theorem hist_empty_input_no_data (o : Option (List ℚ))
    (h : o = none ∨ o = some []) :
    createOrUpdateReturnHistogram true o = HistogramDisplay.noData ∧
    ∀ ls cs es,
      createOrUpdateReturnHistogram true o ≠ HistogramDisplay.chart ls cs es := by
  rcases h with rfl | rfl <;>
    exact ⟨rfl, fun ls cs es => by simp [createOrUpdateReturnHistogram]⟩

theorem hist_empty_input_no_data_witness :
    createOrUpdateReturnHistogram true (none : Option (List ℚ)) =
      HistogramDisplay.noData :=
  (hist_empty_input_no_data none (Or.inl rfl)).1

/-- Claim C10: for every non-empty input of finite returns the computed
`binWidth` is strictly positive — `range/numBins` when `range > 0`, otherwise
`1` — so the `binWidth === 0` branch inside the assignment loop is
unreachable; every sample's clamped bin index is defined and lies below
`numBins`, which is the length of the `bins` array, so the `bins[binIndex]++`
access never goes out of bounds. -/
theorem hist_binWidth_pos_and_index_safe (l : List ℚ) (h : l ≠ []) :
    0 < binWidth l ∧
    binWidth l ≠ 0 ∧
    (0 < maxReturn l - minReturn l →
      binWidth l = (maxReturn l - minReturn l) / (numBins l.length : ℚ)) ∧
    (¬ 0 < maxReturn l - minReturn l → binWidth l = 1) ∧
    (bins l).length = numBins l.length ∧
    ∀ r ∈ l, ∃ j, binIndexOf l r = some j ∧ j < numBins l.length := by
  refine ⟨binWidth_pos l, binWidth_ne_zero l, ?_, ?_, bins_length l,
    fun r _ => binIndexOf_some l r⟩
  · intro hlt
    unfold binWidth
    rw [if_pos hlt]
  · intro hnot
    unfold binWidth
    rw [if_neg hnot]

theorem hist_binWidth_pos_and_index_safe_witness :
    0 < binWidth ((5 : ℚ) :: []) :=
  (hist_binWidth_pos_and_index_safe ((5 : ℚ) :: []) (List.cons_ne_nil 5 [])).1

end FinStock
